import Mathlib

/-!
Verification model of the importExport compliance service.

JavaScript strings are modelled as `List Char`; numbers indexing strings are
`Nat` (all relevant sizes are nonnegative JS string lengths).  JS objects whose
keys are looked up and iterated are modelled as association lists; `undefined`
values are modelled with `Option`.
-/

/-- JS whitespace (the characters relevant to `String.prototype.trim` and the
regex class `\s` for the ASCII texts handled here). -/
def isWsChar (c : Char) : Bool :=
  c = ' ' || c = '\t' || c = '\n' || c = '\r' || c = '\x0b' || c = '\x0c'

/-- Model of `String.prototype.trim`: drop whitespace at both ends. -/
def trimL (s : List Char) : List Char :=
  ((s.dropWhile isWsChar).reverse.dropWhile isWsChar).reverse

/-- Model of `String.prototype.toLowerCase` for the ASCII texts handled here. -/
def lowerL (s : List Char) : List Char :=
  s.map Char.toLower

/-- JS truthiness of a possibly-absent string: `undefined` and `""` are falsy. -/
def optTruthy (o : Option (List Char)) : Bool :=
  match o with
  | some s => !s.isEmpty
  | none => false

/-- Model of `str.split(' ')` (single-character separator), accumulator form. -/
def splitSpacesAux : List Char → List Char → List (List Char)
  | [], acc => [acc.reverse]
  | c :: rest, acc =>
    if c = ' ' then acc.reverse :: splitSpacesAux rest []
    else splitSpacesAux rest (c :: acc)

/-- Model of `str.split(' ')`. -/
def splitSpaces (s : List Char) : List (List Char) :=
  splitSpacesAux s []

/-- Model of `str.split('\n\n')` (two-character separator, leftmost
non-overlapping occurrences), accumulator form. -/
def splitParasAux : List Char → List Char → List (List Char)
  | [], acc => [acc.reverse]
  | [c], acc => [(c :: acc).reverse]
  | c1 :: c2 :: rest, acc =>
    if c1 = '\n' && c2 = '\n' then acc.reverse :: splitParasAux rest []
    else splitParasAux (c2 :: rest) (c1 :: acc)

/-- Model of `pdfText.split('\n\n')` from the upload-rules-pdf chunking loop. -/
def splitParas (s : List Char) : List (List Char) :=
  splitParasAux s []

/-- Model of `description.split(/[,;\/]/)` in `extractHSCodes`. -/
def splitPunctAux : List Char → List Char → List (List Char)
  | [], acc => [acc.reverse]
  | c :: rest, acc =>
    if c = ',' || c = ';' || c = '/' then acc.reverse :: splitPunctAux rest []
    else splitPunctAux rest (c :: acc)

/-- Model of `description.split(/[,;\/]/)`. -/
def splitPunct (s : List Char) : List (List Char) :=
  splitPunctAux s []

/-!
## Document chunker (upload-rules-pdf route, lines 152-186)

```js
for (const paragraph of paragraphs) {
  if ((currentChunk + paragraph).length > chunkSize) {
    if (currentChunk.length > 0) { textChunks.push(currentChunk.trim()); currentChunk = ''; }
    if (paragraph.length > chunkSize) {
      const words = paragraph.split(' ');
      let subChunk = '';
      for (const word of words) {
        if ((subChunk + ' ' + word).length > chunkSize) {
          textChunks.push(subChunk.trim()); subChunk = word;
        } else { subChunk += ' ' + word; }
      }
      if (subChunk.length > 0) { currentChunk = subChunk.trim(); }
    } else { currentChunk = paragraph; }
  } else { currentChunk += '\n\n' + paragraph; }
}
if (currentChunk.length > 0) { textChunks.push(currentChunk.trim()); }
```
-/

/-- Inner word loop of the chunker: splits an oversized paragraph on spaces.
Returns the chunks pushed so far and the final `subChunk`. -/
def wordLoop (n : Nat) : List (List Char) → List Char → List (List Char) →
    List (List Char) × List Char
  | [], sub, acc => (acc, sub)
  | w :: ws, sub, acc =>
    if n < (sub ++ ' ' :: w).length then
      wordLoop n ws w (acc ++ [trimL sub])
    else
      wordLoop n ws (sub ++ ' ' :: w) acc

/-- Outer paragraph loop of the chunker. -/
def paraLoop (n : Nat) : List (List Char) → List Char → List (List Char) →
    List (List Char)
  | [], cur, acc => if 0 < cur.length then acc ++ [trimL cur] else acc
  | p :: ps, cur, acc =>
    if n < (cur ++ p).length then
      if n < p.length then
        let res := wordLoop n (splitSpaces p) []
          (if 0 < cur.length then acc ++ [trimL cur] else acc)
        paraLoop n ps (if 0 < res.2.length then trimL res.2 else []) res.1
      else
        paraLoop n ps p (if 0 < cur.length then acc ++ [trimL cur] else acc)
    else
      paraLoop n ps (cur ++ '\n' :: '\n' :: p) acc

/-- The chunking loop of the upload route: split the text on blank lines and
accumulate paragraphs into chunks of target size `n` (the route fixes
`chunkSize = 1000`; the loop itself works for any `n`). -/
def chunkText (text : List Char) (n : Nat) : List (List Char) :=
  paraLoop n (splitParas text) [] []

/-!
## HS code extractor (`extractHSCodes`, lines 66-91)

The regex `/(\d{8})\s+(.*?)(?:\s+)(Free|Restricted|Prohibited|Not Permitted)/gi`
is modelled directly by a backtracking matcher specialised to this pattern:
eight digits, then greedy `\s+`, then lazy `(.*?)` (`.` excludes line
terminators), then greedy `(?:\s+)`, then the case-insensitive alternation in
its written order.  `exec` with the `g` flag repeatedly scans forward from the
end of the previous match.
-/

/-- The regex `.` without the `s` flag: any character except a line
terminator. -/
def isDotChar (c : Char) : Bool :=
  !(c = '\n' || c = '\r')

/-- Length of the maximal `\s` run at the head of `s`. -/
def wsRun (s : List Char) : Nat :=
  (s.takeWhile isWsChar).length

/-- Case-insensitive prefix test (`i` flag), pattern given lowercased. -/
def ciStartsWith (pat s : List Char) : Bool :=
  lowerL (s.take pat.length) == pat && decide (pat.length ≤ s.length)

/-- Try the alternation `Free|Restricted|Prohibited|Not Permitted` in written
order (case-insensitively); return the matched length and the original slice
(the regex capture keeps the source casing). -/
def findPolicy (s : List Char) : Option (Nat × List Char) :=
  if ciStartsWith ("free".toList) s then some (4, s.take 4)
  else if ciStartsWith ("restricted".toList) s then some (10, s.take 10)
  else if ciStartsWith ("prohibited".toList) s then some (10, s.take 10)
  else if ciStartsWith ("not permitted".toList) s then some (13, s.take 13)
  else none

/-- Greedy `(?:\s+)` before the policy: try whitespace lengths from `w`
down to 1; return the consumed length (whitespace plus policy) and the policy
slice. -/
def tryWs2 (t : List Char) : Nat → Option (Nat × List Char)
  | 0 => none
  | w + 1 =>
    match findPolicy (t.drop (w + 1)) with
    | some (plen, ptxt) => some (w + 1 + plen, ptxt)
    | none => tryWs2 t w

/-- Lazy `(.*?)`: try the shortest description first, extend one character at a
time (each description character must match `.`). Returns the description, the
length consumed after it, and the policy slice.  (`\s+` cannot match an empty
remainder, so the empty case fails.) -/
def descLoop : List Char → List Char → Option (List Char × Nat × List Char)
  | _, [] => none
  | acc, c :: t' =>
    match tryWs2 (c :: t') (wsRun (c :: t')) with
    | some (len2, ptxt) => some (acc.reverse, len2, ptxt)
    | none => if isDotChar c then descLoop (c :: acc) t' else none

/-- Model of JS `hay.includes(needle)`: contiguous-substring test. -/
def isInfixL (needle : List Char) : List Char → Bool
  | [] => needle.isEmpty
  | c :: rest => needle.isPrefixOf (c :: rest) || isInfixL needle rest

/-- Greedy first `\s+`: try whitespace lengths from `w` down to 1. Returns the
first-gap length, the description, the tail length, and the policy slice. -/
def tryWs1 (rest : List Char) : Nat → Option (Nat × List Char × Nat × List Char)
  | 0 => none
  | w + 1 =>
    match descLoop [] (rest.drop (w + 1)) with
    | some (desc, len2, ptxt) => some (w + 1, desc, len2, ptxt)
    | none => tryWs1 rest w

/-- Attempt the whole pattern at the head of `s`; on success return the code,
raw description capture, policy slice, and total matched length. -/
def matchAt (s : List Char) : Option (List Char × List Char × List Char × Nat) :=
  let code := s.take 8
  if code.length == 8 && code.all Char.isDigit then
    let rest := s.drop 8
    match tryWs1 rest (wsRun rest) with
    | some (w1, desc, len2, ptxt) => some (code, desc, ptxt, 8 + w1 + desc.length + len2)
    | none => none
  else none

/-- The `while ((match = hsCodeRegex.exec(pdfText)) !== null)` loop: scan
forward, emitting each match and resuming at its end.  `fuel` bounds the scan
(`text.length + 1` always suffices: every step consumes at least one
character). -/
def execLoopFuel : Nat → List Char → List (List Char × List Char × List Char)
  | 0, _ => []
  | _, [] => []
  | fuel + 1, c :: s' =>
    match matchAt (c :: s') with
    | some (code, desc, ptxt, len) => (code, desc, ptxt) :: execLoopFuel fuel ((c :: s').drop len)
    | none => execLoopFuel fuel s'

/-- One HS code table row: `{description, policy}` (stored with source
casing). -/
structure HSEntry where
  description : List Char
  policy : List Char
deriving DecidableEq

/-- JS object assignment `obj[key] = val`: overwrite in place on existing key,
else append (insertion order preserved for the string keys used in the phrase
index). -/
def objInsert (m : List (List Char × α)) (key : List Char) (val : α) :
    List (List Char × α) :=
  if m.any (fun p => p.1 == key) then
    m.map (fun p => if p.1 == key then (key, val) else p)
  else m ++ [(key, val)]

/-- Process one regex match as the body of the `while` loop in
`extractHSCodes` does: store the entry and derive the phrase-index rows. -/
def extractStep (tables : List (List Char × HSEntry) × List (List Char × List Char))
    (m : List Char × List Char × List Char) :
    List (List Char × HSEntry) × List (List Char × List Char) :=
  let hsCode := m.1
  let description := trimL m.2.1
  let exportPolicy := m.2.2
  let hsCodesData := objInsert tables.1 hsCode ⟨description, exportPolicy⟩
  let items := (splitPunct description).map (fun item => lowerL (trimL item))
  let itemToHsMap := items.foldl
    (fun acc item => if 3 < item.length then objInsert acc item hsCode else acc)
    tables.2
  let itemToHsMap := objInsert itemToHsMap (lowerL description) hsCode
  (hsCodesData, itemToHsMap)

/-- `extractHSCodes(pdfText)`: run the regex loop and build the code table and
the item-to-HS phrase index. -/
def extractHSCodes (pdfText : List Char) :
    List (List Char × HSEntry) × List (List Char × List Char) :=
  (execLoopFuel (pdfText.length + 1) pdfText).foldl extractStep ([], [])

/-!
## Compliance decision engine (`checkHSCodeCompliance`, lines 303-357)

The generative-text service is modelled as an injected oracle
`explain : Prompt → Option (List Char)` (`none` = the service call threw); a
failed call is replaced by the canned template for that call site, as in the
source's `catch` blocks.
-/

/-- The table keyed by code, as an association list. -/
abbrev HSTable := List (List Char × HSEntry)

/-- The three templated prompts sent to the explanation oracle. -/
inductive Prompt where
  | unknownCode (hsCode : List Char)
  | descriptionNotFound (normalizedDescription : List Char)
  | restrictedCode (hsCode : List Char)
deriving DecidableEq

/-- A human-readable reason: either oracle-produced text or the canned
fallback template of the given call site. -/
inductive ReasonText where
  | fromOracle (t : List Char)
  | canned (p : Prompt)
deriving DecidableEq

/-- The transient result of `checkHSCodeCompliance` (`exists_` models the
`exists` field). -/
structure ComplianceResult where
  exists_ : Bool
  allowed : Bool
  policy : Option (List Char)
  description : Option (List Char)
  reason : Option ReasonText
deriving DecidableEq

/-- `hsCodesData[code].policy` (the key is always present where used). -/
def polOf (t : HSTable) (k : List Char) : List Char :=
  ((List.lookup k t).getD ⟨[], []⟩).policy

/-- `hsCodesData[code].description` (the key is always present where used). -/
def descrOf (t : HSTable) (k : List Char) : List Char :=
  ((List.lookup k t).getD ⟨[], []⟩).description

/-- `policy.toLowerCase() === 'free'`. -/
def lowerEqFree (p : List Char) : Bool :=
  lowerL p == "free".toList

/-- The chapter filter of `checkHSCodeCompliance`:
`Object.keys(embeddingsDatabase.hsCodesData || {}).filter(code =>
code.startsWith(chapter) || code.startsWith(twoDigitChapter))`.  JS object key
iteration puts these numeric-string keys in ascending numeric order; the model
list is kept in that order at the concrete instances. -/
def matchingCodes (hsCodesData : Option HSTable) (hsCode : List Char) :
    List (List Char) :=
  ((hsCodesData.getD []).map Prod.fst).filter
    (fun code => (hsCode.take 4).isPrefixOf code || (hsCode.take 2).isPrefixOf code)

/-- `Falls under chapter ${chapter} which has some free categories`. -/
def chapterFreeDesc (hsCode : List Char) : List Char :=
  "Falls under chapter ".toList ++ hsCode.take 4 ++ " which has some free categories".toList

/-- `Falls under chapter ${chapter} which has no free categories`. -/
def chapterNoFreeDesc (hsCode : List Char) : List Char :=
  "Falls under chapter ".toList ++ hsCode.take 4 ++ " which has no free categories".toList

/-- The final oracle branch of `checkHSCodeCompliance`: ask for a dynamic
reason, fall back to the canned template if the call throws. -/
def unknownCodeResult (hsCode : List Char) (explain : Prompt → Option (List Char)) :
    ComplianceResult :=
  match explain (.unknownCode hsCode) with
  | some t => ⟨false, false, none, none, some (.fromOracle t)⟩
  | none => ⟨false, false, none, none, some (.canned (.unknownCode hsCode))⟩

/-- `checkHSCodeCompliance(hsCode, embeddingsDatabase)`: exact code lookup,
then the chapter filter, then the explanation oracle.  `hsCodesData` is
`Option` because `embeddingsDatabase.hsCodesData` can be `undefined` (the
source guards the exact lookup with `&&` and the filter with `|| {}`). -/
def checkHSCodeCompliance (hsCodesData : Option HSTable) (hsCode : List Char)
    (explain : Prompt → Option (List Char)) : ComplianceResult :=
  match hsCodesData.bind (fun t => List.lookup hsCode t) with
  | some hsData =>
    ⟨true, lowerEqFree hsData.policy, some hsData.policy, some hsData.description, none⟩
  | none =>
    if 4 ≤ hsCode.length then
      match matchingCodes hsCodesData hsCode with
      | [] => unknownCodeResult hsCode explain
      | c :: cs =>
        let t := hsCodesData.getD []
        let policies := (c :: cs).map (fun code => polOf t code)
        if policies.any lowerEqFree then
          ⟨true, true, some ("Free".toList), some (chapterFreeDesc hsCode), none⟩
        else
          ⟨true, false, some (policies.headD []), some (chapterNoFreeDesc hsCode), none⟩
    else unknownCodeResult hsCode explain

/-!
## Lexical code resolvers (`findHSCodeByItemName`, `findHSCodeByDescription`)
-/

/-- Tiers 2 and 3 of `findHSCodeByItemName`: some indexed phrase containing the
query, else some indexed phrase longer than 5 characters contained in the
query.  The `if (containsMatch)` truthiness test means an empty found key falls
through to tier 3; the final ternary maps an absent tier-3 match to `null`. -/
def itemNameTiers23 (normalizedItemName : List Char)
    (itemToHsMap : List (List Char × List Char)) : Option (List Char) :=
  let itemKeys := itemToHsMap.map Prod.fst
  match itemKeys.find? (fun key => isInfixL normalizedItemName key) with
  | some key =>
    if key.isEmpty then
      match itemKeys.find? (fun key => isInfixL key normalizedItemName
          && decide (5 < key.length)) with
      | some key2 => List.lookup key2 itemToHsMap
      | none => none
    else List.lookup key itemToHsMap
  | none =>
    match itemKeys.find? (fun key => isInfixL key normalizedItemName
        && decide (5 < key.length)) with
    | some key2 => List.lookup key2 itemToHsMap
    | none => none

/-- `findHSCodeByItemName(itemName, itemToHsMap)`: exact normalized match
(`if (itemToHsMap[norm])` — a falsy empty value falls through), then tiers 2
and 3. -/
def findHSCodeByItemName (itemName : List Char)
    (itemToHsMap : List (List Char × List Char)) : Option (List Char) :=
  let normalizedItemName := trimL (lowerL itemName)
  match List.lookup normalizedItemName itemToHsMap with
  | some v => if v.isEmpty then itemNameTiers23 normalizedItemName itemToHsMap else some v
  | none => itemNameTiers23 normalizedItemName itemToHsMap

/-- Exact tier of the description lookup: first stored code whose description
lowercases to the normalized query. -/
def descExactFind (t : HSTable) (norm : List Char) : Option (List Char) :=
  (t.map Prod.fst).find? (fun hsCode => lowerL (descrOf t hsCode) == norm)

/-- Substring tier: first stored code whose description contains the query or
is contained in it. -/
def descSubstringFind (t : HSTable) (norm : List Char) : Option (List Char) :=
  (t.map Prod.fst).find? (fun hsCode =>
    isInfixL norm (lowerL (descrOf t hsCode))
    || isInfixL (lowerL (descrOf t hsCode)) norm)

/-- `partialMatchHsCode || null`: an empty (falsy) found key yields `null`. -/
def descSubstringResult (t : HSTable) (norm : List Char) : Option (List Char) :=
  match descSubstringFind t norm with
  | some k => if k.isEmpty then none else some k
  | none => none

/-- `findHSCodeByDescription(description, hsCodesData)` (lines 290-301). -/
def findHSCodeByDescription (description : List Char) (t : HSTable) :
    Option (List Char) :=
  let norm := trimL (lowerL description)
  match descExactFind t norm with
  | some k => if k.isEmpty then descSubstringResult t norm else some k
  | none => descSubstringResult t norm

/-!
## Embedding index merge (upload-rules-pdf route, lines 194-219)

The per-chunk embedding oracle is injected as
`emb : Nat → List Char → Option (List Int)` (`none` = the worker call threw,
so that chunk is dropped by the `filter(result => result !== null)`).
-/

/-- One stored chunk: `{id, content, embedding}`. -/
structure Chunk where
  id : Nat
  content : List Char
  embedding : List Int
deriving DecidableEq

/-- The successful new chunks of one ingestion:
`id: index + (existingEmbeddingsData.chunks?.length || 0)`, failures dropped. -/
def newChunks (emb : Nat → List Char → Option (List Int)) (count : Nat)
    (textChunks : List (List Char)) : List Chunk :=
  textChunks.enum.filterMap
    (fun p => (emb p.1 p.2).map (fun v => Chunk.mk (p.1 + count) p.2 v))

/-- `mergedChunks = [...(existingEmbeddingsData.chunks || []), ...successfulChunks]`. -/
def ingestChunks (emb : Nat → List Char → Option (List Int))
    (existing : List Chunk) (textChunks : List (List Char)) : List Chunk :=
  existing ++ newChunks emb existing.length textChunks

/-!
## find-by-description route (lines 492-521) and the shipment orchestrator's
step 1 (`index.js` lines 36-54)
-/

/-- The JSON shape of a find-by-description response: which fields are present
and their values (`note`/`error` record only field presence; their text is
fixed per return site). -/
structure FindResp where
  httpStatus : Nat
  status : Option Bool
  hsCode : Option (List Char)
  note : Bool
  error : Bool
deriving DecidableEq

/-- Substring-tier response of the route: `{status:true, hsCode, note}` on a
truthy partial match, else `{status:false, error}`. -/
def findByDescSubstringResp (t : HSTable) (norm : List Char) : FindResp :=
  match descSubstringFind t norm with
  | some k =>
    if k.isEmpty then ⟨200, some false, none, false, true⟩
    else ⟨200, some true, some k, true, false⟩
  | none => ⟨200, some false, none, false, true⟩

/-- `POST /api/find-by-description`: 400 on a falsy description; on an exact
(case-insensitive) description match respond `{hsCode}` with no `status`
field; else try the substring tier. -/
def findByDescriptionRoute (hsCodesData : Option HSTable)
    (description : Option (List Char)) : FindResp :=
  if !optTruthy description then ⟨400, some false, none, false, true⟩
  else
    let t := hsCodesData.getD []
    let norm := trimL (lowerL (description.getD []))
    match descExactFind t norm with
    | some k =>
      if k.isEmpty then findByDescSubstringResp t norm
      else ⟨200, none, some k, false, false⟩
    | none => findByDescSubstringResp t norm

/-- Step 1 of `check-shipment-compliance`:
`if (hsResponse.data.status && hsResponse.data.hsCode)` — the resolution is
accepted only when both fields are present and truthy. -/
def step1Accepts (r : FindResp) : Bool :=
  (match r.status with
   | some b => b
   | none => false)
  && (match r.hsCode with
      | some c => !c.isEmpty
      | none => false)

/-!
## Startup load and the check-export-compliance route (lines 24-30, 383-486)
-/

/-- The combined snapshot file `embeddings-database.json` as written by the
upload route (lines 220-223): only `chunks` and `hsCodesData`. -/
structure Snapshot where
  chunks : List Chunk
  hsCodesData : HSTable
deriving DecidableEq

/-- The in-memory `embeddingsDatabase` object; `itemToHsMap` is `Option`
because that property is only assigned during an upload merge (line 231). -/
structure Db where
  chunks : List Chunk
  hsCodesData : Option HSTable
  itemToHsMap : Option (List (List Char × List Char))
deriving DecidableEq

/-- Startup (lines 24-30): `require('./embeddings-database.json')` or, when it
throws, the empty object.  Only the combined snapshot is loaded;
`USA-item-to-hs-mapping.json` is never read at startup, so `itemToHsMap` is
`undefined` either way. -/
def startupDb (file : Option Snapshot) : Db :=
  match file with
  | some s => ⟨s.chunks, some s.hsCodesData, none⟩
  | none => ⟨[], none, none⟩

/-- The distinct responses of `POST /api/check-export-compliance`, one
constructor per return site. -/
inductive ExportResp where
  | missingFields
  | serverError
  | nameUnresolved (itemName : List Char)
  | descUnresolved (normalizedDescription : List Char) (reason : ReasonText)
  | codeNotFound (code : List Char) (reason : Option ReasonText)
  | allowedResp (code : List Char) (policy description : Option (List Char))
  | notAllowedResp (code : List Char) (policy description : Option (List Char))
      (reason : ReasonText)
deriving DecidableEq

/-- The tail of the route after a code has been resolved: run
`checkHSCodeCompliance` and emit the allowed / not-allowed / not-found
response (the not-allowed reason comes from the oracle, canned on failure). -/
def exportDecision (db : Db) (codeToCheck : List Char)
    (explain : Prompt → Option (List Char)) : ExportResp :=
  let comp := checkHSCodeCompliance db.hsCodesData codeToCheck explain
  if comp.exists_ = false then .codeNotFound codeToCheck comp.reason
  else if comp.allowed then .allowedResp codeToCheck comp.policy comp.description
  else
    match explain (.restrictedCode codeToCheck) with
    | some t => .notAllowedResp codeToCheck comp.policy comp.description (.fromOracle t)
    | none =>
      .notAllowedResp codeToCheck comp.policy comp.description
        (.canned (.restrictedCode codeToCheck))

/-- The `if (!hsCode && itemDescription)` branch and the decision tail.
`findHSCodeByDescription` begins with `Object.keys(hsCodesData)`-style access
on `embeddingsDatabase.hsCodesData`, which throws when that is `undefined`
(caught by the route, becoming a 500). -/
def exportDescBranch (db : Db) (codeToCheck : Option (List Char))
    (hsCode itemDescription : Option (List Char))
    (explain : Prompt → Option (List Char)) : ExportResp :=
  if !optTruthy hsCode && optTruthy itemDescription then
    let normalizedDescription := trimL (lowerL (itemDescription.getD []))
    match db.hsCodesData with
    | none => .serverError
    | some t =>
      match findHSCodeByDescription normalizedDescription t with
      | some code2 =>
        if code2.isEmpty then
          match explain (.descriptionNotFound normalizedDescription) with
          | some txt => .descUnresolved normalizedDescription (.fromOracle txt)
          | none =>
            .descUnresolved normalizedDescription
              (.canned (.descriptionNotFound normalizedDescription))
        else exportDecision db code2 explain
      | none =>
        match explain (.descriptionNotFound normalizedDescription) with
        | some txt => .descUnresolved normalizedDescription (.fromOracle txt)
        | none =>
          .descUnresolved normalizedDescription
            (.canned (.descriptionNotFound normalizedDescription))
  else
    match codeToCheck with
    | some c => exportDecision db c explain
    | none => .serverError

/-- `POST /api/check-export-compliance`.  In the `itemName` branch the source
evaluates `itemToHsMap[normalizedItemName]` inside `findHSCodeByItemName`;
when `embeddingsDatabase.itemToHsMap` is `undefined` that indexing throws a
`TypeError`, the route's `catch` answers 500 — modelled as `serverError`.
Likewise an `undefined` `codeToCheck` reaching `checkHSCodeCompliance` would
throw on `hsCode.length`. -/
def checkExportComplianceRoute (db : Db)
    (hsCode itemName itemDescription : Option (List Char))
    (explain : Prompt → Option (List Char)) : ExportResp :=
  if !optTruthy hsCode && !optTruthy itemName && !optTruthy itemDescription then
    .missingFields
  else if !optTruthy hsCode && optTruthy itemName then
    match db.itemToHsMap with
    | none => .serverError
    | some m =>
      match findHSCodeByItemName (itemName.getD []) m with
      | none => .nameUnresolved (itemName.getD [])
      | some code1 =>
        if code1.isEmpty then .nameUnresolved (itemName.getD [])
        else exportDescBranch db (some code1) hsCode itemDescription explain
  else exportDescBranch db hsCode hsCode itemDescription explain

/-!
## Concrete data used by the witnesses and counterexamples
-/

/-- An oracle whose every call fails (exercising the canned fallbacks). -/
def noOracle : Prompt → Option (List Char) :=
  fun _ => none

/-- An embedding oracle failing on every index except 2. -/
def embOnly2 : Nat → List Char → Option (List Int) :=
  fun i _ => if i = 2 then some [5] else none

/-- An embedding oracle that always succeeds. -/
def embAll : Nat → List Char → Option (List Int) :=
  fun _ _ => some [7]

/-- Code table with a 4-digit-chapter match (`Restricted`) and a code matching
only the 2-digit chapter (`Free`); keys in JS object (ascending numeric)
iteration order. -/
def dbChapters : HSTable :=
  [("12345678".toList, ⟨"industrial widgets".toList, "Restricted".toList⟩),
   ("12999999".toList, ⟨"assorted gadgets".toList, "Free".toList⟩)]

/-- `dbChapters` without the 2-digit-only `Free` code. -/
def dbChapter4Only : HSTable :=
  [("12345678".toList, ⟨"industrial widgets".toList, "Restricted".toList⟩)]

/-- The code table of the chapter-fallback example in the spec:
`{"12340000":"Free"}` and `{"12345678":"Restricted"}`. -/
def dbSpecExample : HSTable :=
  [("12340000".toList, ⟨"oil seeds".toList, "Free".toList⟩),
   ("12345678".toList, ⟨"soya beans".toList, "Restricted".toList⟩)]

/-- Phrase index containing only the entry `"shirts"`. -/
def shirtsMap : List (List Char × List Char) :=
  [("shirts".toList, "61051000".toList)]

/-- A database whose code table has the single entry `85171200`. -/
def dbTelephone : HSTable :=
  [("85171200".toList, ⟨"Telephone sets".toList, "Free".toList⟩)]

/-- A chunk respects the (amended) size discipline: it is within two separator
characters of the target size, or it is a single space-free word. -/
def SizeOk (n : Nat) (c : List Char) : Prop :=
  c.length ≤ n + 2 ∨ ∀ a ∈ c, a ≠ ' '

/-- The running `subChunk` of the word loop: within the target size, or a
single space-free word. -/
def SubOk (n : Nat) (s : List Char) : Prop :=
  s.length ≤ n ∨ ∀ a ∈ s, a ≠ ' '

/-!
# Helper lemmas
-/

theorem trimL_nil : trimL [] = [] := rfl

theorem trimL_length_le (s : List Char) : (trimL s).length ≤ s.length := by
  unfold trimL
  calc ((s.dropWhile isWsChar).reverse.dropWhile isWsChar).reverse.length
      = ((s.dropWhile isWsChar).reverse.dropWhile isWsChar).length :=
        List.length_reverse _
    _ ≤ (s.dropWhile isWsChar).reverse.length := (List.dropWhile_sublist _).length_le
    _ = (s.dropWhile isWsChar).length := List.length_reverse _
    _ ≤ s.length := (List.dropWhile_sublist _).length_le

theorem mem_of_mem_trimL {a : Char} {s : List Char} (h : a ∈ trimL s) : a ∈ s := by
  unfold trimL at h
  rw [List.mem_reverse] at h
  have h1 : a ∈ (s.dropWhile isWsChar).reverse := (List.dropWhile_sublist _).subset h
  rw [List.mem_reverse] at h1
  exact (List.dropWhile_sublist _).subset h1

theorem trimL_eq_nil_iff {s : List Char} :
    trimL s = [] ↔ ∀ a ∈ s, isWsChar a = true := by
  unfold trimL
  rw [List.reverse_eq_nil_iff, List.dropWhile_eq_nil_iff]
  constructor
  · intro h a ha
    rw [← List.takeWhile_append_dropWhile (p := isWsChar) (l := s)] at ha
    rcases List.mem_append.mp ha with h1 | h2
    · exact List.mem_takeWhile_imp h1
    · exact h a (List.mem_reverse.mpr h2)
  · intro h a ha
    exact h a ((List.dropWhile_sublist _).subset (List.mem_reverse.mp ha))

theorem splitSpacesAux_no_space (s : List Char) :
    ∀ (acc : List Char), (∀ a ∈ acc, a ≠ ' ') →
    ∀ w ∈ splitSpacesAux s acc, ∀ a ∈ w, a ≠ ' ' := by
  induction s with
  | nil =>
    intro acc hacc w hw a ha
    simp only [splitSpacesAux, List.mem_singleton] at hw
    subst hw
    exact hacc a (List.mem_reverse.mp ha)
  | cons c rest ih =>
    intro acc hacc w hw a ha
    simp only [splitSpacesAux] at hw
    by_cases hc : c = ' '
    · rw [if_pos hc] at hw
      rcases List.mem_cons.mp hw with rfl | hw
      · exact hacc a (List.mem_reverse.mp ha)
      · exact ih [] (by simp) w hw a ha
    · rw [if_neg hc] at hw
      refine ih (c :: acc) ?_ w hw a ha
      intro b hb
      rcases List.mem_cons.mp hb with rfl | hb
      · exact hc
      · exact hacc b hb

theorem splitSpaces_no_space (p : List Char) :
    ∀ w ∈ splitSpaces p, ∀ a ∈ w, a ≠ ' ' :=
  splitSpacesAux_no_space p [] (by simp)

theorem wordLoop_ok (n : Nat) (ws : List (List Char)) :
    ∀ (sub : List Char) (acc : List (List Char)),
    (∀ w ∈ ws, ∀ a ∈ w, a ≠ ' ') → SubOk n sub → (∀ c ∈ acc, SizeOk n c) →
    (∀ c ∈ (wordLoop n ws sub acc).1, SizeOk n c) ∧ SubOk n (wordLoop n ws sub acc).2 := by
  induction ws with
  | nil =>
    intro sub acc _ hsub hacc
    exact ⟨hacc, hsub⟩
  | cons w ws ih =>
    intro sub acc hws hsub hacc
    simp only [wordLoop]
    by_cases h : n < (sub ++ ' ' :: w).length
    · rw [if_pos h]
      refine ih w (acc ++ [trimL sub]) (fun w' hw' => hws w' (List.mem_cons_of_mem _ hw'))
        (Or.inr (fun a ha => hws w (List.mem_cons_self _ _) a ha)) ?_
      intro c hc
      rcases List.mem_append.mp hc with hc | hc
      · exact hacc c hc
      · rcases List.mem_singleton.mp hc with rfl
        rcases hsub with hlen | hnsp
        · exact Or.inl (le_trans (trimL_length_le sub) (le_trans hlen (Nat.le_add_right n 2)))
        · exact Or.inr (fun a ha => hnsp a (mem_of_mem_trimL ha))
    · rw [if_neg h]
      exact ih (sub ++ ' ' :: w) acc (fun w' hw' => hws w' (List.mem_cons_of_mem _ hw'))
        (Or.inl (Nat.le_of_not_lt h)) hacc

theorem paraLoop_ok (n : Nat) (ps : List (List Char)) :
    ∀ (cur : List Char) (acc : List (List Char)),
    SizeOk n (trimL cur) → (∀ c ∈ acc, SizeOk n c) →
    ∀ c ∈ paraLoop n ps cur acc, SizeOk n c := by
  induction ps with
  | nil =>
    intro cur acc hcur hacc c hc
    simp only [paraLoop] at hc
    by_cases h0 : 0 < cur.length
    · rw [if_pos h0] at hc
      rcases List.mem_append.mp hc with hc | hc
      · exact hacc c hc
      · rcases List.mem_singleton.mp hc with rfl
        exact hcur
    · rw [if_neg h0] at hc
      exact hacc c hc
  | cons p ps ih =>
    intro cur acc hcur hacc c hc
    simp only [paraLoop] at hc
    have haccf : ∀ c' ∈ (if 0 < cur.length then acc ++ [trimL cur] else acc), SizeOk n c' := by
      intro c' hc'
      by_cases h0 : 0 < cur.length
      · rw [if_pos h0] at hc'
        rcases List.mem_append.mp hc' with h | h
        · exact hacc c' h
        · rcases List.mem_singleton.mp h with rfl
          exact hcur
      · rw [if_neg h0] at hc'
        exact hacc c' hc'
    by_cases h1 : n < (cur ++ p).length
    · rw [if_pos h1] at hc
      by_cases h2 : n < p.length
      · rw [if_pos h2] at hc
        obtain ⟨hres1, hres2⟩ := wordLoop_ok n (splitSpaces p) []
          (if 0 < cur.length then acc ++ [trimL cur] else acc)
          (splitSpaces_no_space p) (Or.inl (Nat.zero_le n)) haccf
        refine ih _ _ ?_ hres1 c hc
        by_cases h3 : 0 < (wordLoop n (splitSpaces p) []
            (if 0 < cur.length then acc ++ [trimL cur] else acc)).2.length
        · rw [if_pos h3]
          rcases hres2 with hlen | hnsp
          · exact Or.inl (le_trans (trimL_length_le _) (le_trans (trimL_length_le _)
              (le_trans hlen (Nat.le_add_right n 2))))
          · exact Or.inr (fun a ha => hnsp a (mem_of_mem_trimL (mem_of_mem_trimL ha)))
        · rw [if_neg h3, trimL_nil]
          exact Or.inl (by simp)
      · rw [if_neg h2] at hc
        refine ih p _ ?_ haccf c hc
        exact Or.inl (le_trans (trimL_length_le p)
          (le_trans (Nat.le_of_not_lt h2) (Nat.le_add_right n 2)))
    · rw [if_neg h1] at hc
      refine ih _ acc ?_ hacc c hc
      have hle : cur.length + p.length ≤ n := by
        have h := Nat.le_of_not_lt h1
        rw [List.length_append] at h
        exact h
      have hlen2 : (cur ++ '\n' :: '\n' :: p).length = cur.length + p.length + 2 := by
        simp only [List.length_append, List.length_cons]
        omega
      refine Or.inl ?_
      have h3 := trimL_length_le (cur ++ '\n' :: '\n' :: p)
      omega

theorem paraLoop_nonempty (n : Nat) (ps : List (List Char)) :
    ∀ (cur : List Char) (acc : List (List Char)),
    (∀ p ∈ ps, p.length ≤ n ∧ trimL p ≠ []) →
    (cur = [] ∨ trimL cur ≠ []) → (∀ c ∈ acc, c ≠ []) →
    ∀ c ∈ paraLoop n ps cur acc, c ≠ [] := by
  induction ps with
  | nil =>
    intro cur acc _ hcur hacc c hc
    simp only [paraLoop] at hc
    by_cases h0 : 0 < cur.length
    · rw [if_pos h0] at hc
      rcases List.mem_append.mp hc with h | h
      · exact hacc c h
      · rcases List.mem_singleton.mp h with rfl
        rcases hcur with rfl | hne
        · simp at h0
        · exact hne
    · rw [if_neg h0] at hc
      exact hacc c hc
  | cons p ps ih =>
    intro cur acc hp hcur hacc c hc
    simp only [paraLoop] at hc
    have haccf : ∀ c' ∈ (if 0 < cur.length then acc ++ [trimL cur] else acc), c' ≠ [] := by
      intro c' hc'
      by_cases h0 : 0 < cur.length
      · rw [if_pos h0] at hc'
        rcases List.mem_append.mp hc' with h | h
        · exact hacc c' h
        · rcases List.mem_singleton.mp h with rfl
          rcases hcur with rfl | hne
          · simp at h0
          · exact hne
      · rw [if_neg h0] at hc'
        exact hacc c' hc'
    by_cases h1 : n < (cur ++ p).length
    · rw [if_pos h1] at hc
      have h2 : ¬ n < p.length := by
        have := (hp p (List.mem_cons_self _ _)).1
        omega
      rw [if_neg h2] at hc
      exact ih p _ (fun q hq => hp q (List.mem_cons_of_mem _ hq))
        (Or.inr (hp p (List.mem_cons_self _ _)).2) haccf c hc
    · rw [if_neg h1] at hc
      refine ih _ acc (fun q hq => hp q (List.mem_cons_of_mem _ hq)) ?_ hacc c hc
      refine Or.inr ?_
      intro hnil
      have hall := trimL_eq_nil_iff.mp hnil
      refine (hp p (List.mem_cons_self _ _)).2 (trimL_eq_nil_iff.mpr ?_)
      intro a ha
      exact hall a (List.mem_append.mpr (Or.inr
        (List.mem_cons_of_mem _ (List.mem_cons_of_mem _ ha))))

/-!
# Claims
-/

/-- Claim C1, counterexample: with `maxSize = 10`, chunking
`"aaa aaaa\n\nbb bb bb\n\ncc"` yields the chunk `"bb bb bb\n\ncc"` of length
12 > 10, which contains spaces and none of whose space-separated words exceeds
10 — so a paragraph-accumulated chunk can exceed `maxSize` (the two separator
characters inserted before the last appended paragraph are not counted by the
size check when the buffer was seeded by a flushed paragraph). -/
theorem chunk_oversize_cex :
    ("bb bb bb\n\ncc".toList ∈ chunkText ("aaa aaaa\n\nbb bb bb\n\ncc".toList) 10)
    ∧ ("bb bb bb\n\ncc".toList).length = 12
    ∧ (∃ a ∈ "bb bb bb\n\ncc".toList, a = ' ')
    ∧ ∀ w ∈ splitSpaces ("bb bb bb\n\ncc".toList), w.length ≤ 10 := by decide

/-- Claim C1, amended: every chunk produced by the document chunker either has
length at most `maxSize + 2` (paragraph accumulation can exceed `maxSize` by
up to the two separator characters inserted before the last appended
paragraph) or is a single space-free word (which may exceed `maxSize`). -/
theorem chunk_length_bound (text : List Char) (n : Nat) :
    ∀ c ∈ chunkText text n, c.length ≤ n + 2 ∨ ∀ a ∈ c, a ≠ ' ' := by
  have h := paraLoop_ok n (splitParas text) [] []
    (by rw [trimL_nil]; exact Or.inl (by simp)) (by simp)
  exact h

/-- Witness for `chunk_length_bound` at the concrete text `"ab"`. -/
theorem chunk_length_bound_witness :
    ("ab".toList ∈ chunkText ("ab".toList) 10)
    ∧ (("ab".toList).length ≤ 10 + 2 ∨ ∀ a ∈ "ab".toList, a ≠ ' ') :=
  ⟨by decide, chunk_length_bound ("ab".toList) 10 ("ab".toList) (by decide)⟩

/-- Claim C5, counterexample: chunking emits empty chunks — with
`maxSize = 10`, the whitespace-only paragraph in `"   \n\nbbbbbb"` is flushed
as the empty chunk, and in `"aaaaaaaaaaa bb"` the oversized paragraph whose
first word alone overflows pushes the empty initial sub-buffer. -/
theorem chunk_empty_cex :
    chunkText ("   \n\nbbbbbb".toList) 10 = [[], "bbbbbb".toList]
    ∧ ([] ∈ chunkText ("   \n\nbbbbbb".toList) 10)
    ∧ chunkText ("aaaaaaaaaaa bb".toList) 10
      = [[], "aaaaaaaaaaa".toList, "bb".toList] := by decide

/-- Claim C5, amended: chunks are non-empty provided every blank-line-separated
paragraph of the input fits in `maxSize` and contains a non-whitespace
character; an empty chunk can be emitted only when a flushed buffer is all
whitespace or an oversized paragraph's first word alone overflows. -/
theorem chunk_nonempty (text : List Char) (n : Nat)
    (hp : ∀ p ∈ splitParas text, p.length ≤ n ∧ trimL p ≠ []) :
    ∀ c ∈ chunkText text n, c ≠ [] :=
  paraLoop_nonempty n (splitParas text) [] [] hp (Or.inl rfl) (by simp)

/-- Witness for `chunk_nonempty` at the concrete text `"ab\n\ncd"`. -/
theorem chunk_nonempty_witness :
    (∀ p ∈ splitParas ("ab\n\ncd".toList), p.length ≤ 10 ∧ trimL p ≠ [])
    ∧ ("ab\n\ncd".toList ∈ chunkText ("ab\n\ncd".toList) 10)
    ∧ "ab\n\ncd".toList ≠ ([] : List Char) :=
  ⟨by decide, by decide, chunk_nonempty ("ab\n\ncd".toList) 10 (by decide)
    ("ab\n\ncd".toList) (by decide)⟩

theorem newChunks_map_id (emb : Nat → List Char → Option (List Int)) (k : Nat)
    (l : List (Nat × List Char)) :
    (l.filterMap (fun p => (emb p.1 p.2).map (fun v => Chunk.mk (p.1 + k) p.2 v))).map Chunk.id
      = (l.filter (fun p => (emb p.1 p.2).isSome)).map (fun p => p.1 + k) := by
  induction l with
  | nil => rfl
  | cons a l ih =>
    cases h : emb a.1 a.2 <;>
      simp [List.filterMap_cons, h, List.filter_cons, ih]

/-- Claim C4, counterexample: merge A ingests three chunks of which only index
2 gets an embedding (stored id 2, stored count 1); merge B then ingests one
chunk, assigned id `0 + 1 = 1` — the merged id list `[2, 1]` is not
monotonically increasing. -/
theorem ingest_ids_monotone_cex :
    ((ingestChunks embAll (ingestChunks embOnly2 []
        ["aa".toList, "bb".toList, "cc".toList]) ["dd".toList]).map Chunk.id = [2, 1])
    ∧ ¬ List.Pairwise (· < ·) ((ingestChunks embAll (ingestChunks embOnly2 []
        ["aa".toList, "bb".toList, "cc".toList]) ["dd".toList]).map Chunk.id) := by decide

/-- Claim C4, amended: each new chunk's id equals its original index plus the
number of chunks already stored (failed embeddings dropped), and the merged id
list is strictly increasing provided the already-stored ids are strictly
increasing and all below the stored count — i.e. provided no chunk was dropped
in an earlier merge; the counterexample shows monotonicity fails otherwise. -/
theorem ingest_id_assignment (emb : Nat → List Char → Option (List Int))
    (existing : List Chunk) (textChunks : List (List Char)) :
    ((ingestChunks emb existing textChunks).map Chunk.id
      = existing.map Chunk.id
        ++ (textChunks.enum.filter (fun p => (emb p.1 p.2).isSome)).map
            (fun p => p.1 + existing.length))
    ∧ (List.Pairwise (· < ·) (existing.map Chunk.id) →
       (∀ ch ∈ existing, ch.id < existing.length) →
       List.Pairwise (· < ·) ((ingestChunks emb existing textChunks).map Chunk.id)) := by
  have hmap : (ingestChunks emb existing textChunks).map Chunk.id
      = existing.map Chunk.id
        ++ (textChunks.enum.filter (fun p => (emb p.1 p.2).isSome)).map
            (fun p => p.1 + existing.length) := by
    unfold ingestChunks newChunks
    rw [List.map_append, newChunks_map_id]
  refine ⟨hmap, ?_⟩
  intro hpw hbound
  rw [hmap, List.pairwise_append]
  refine ⟨hpw, ?_, ?_⟩
  · have h0 : List.Pairwise (· < ·) (textChunks.enum.map Prod.fst) := by
      rw [List.enum_map_fst]
      exact List.pairwise_lt_range _
    have h1 : List.Pairwise (fun p q : Nat × List Char => p.1 < q.1) textChunks.enum :=
      List.pairwise_map.mp h0
    have h2 : List.Pairwise (fun p q : Nat × List Char => p.1 < q.1)
        (textChunks.enum.filter (fun p => (emb p.1 p.2).isSome)) :=
      h1.sublist (List.filter_sublist _)
    rw [List.pairwise_map]
    exact h2.imp (fun h => Nat.add_lt_add_right h _)
  · intro a ha b hb
    obtain ⟨ch, hch, rfl⟩ := List.mem_map.mp ha
    obtain ⟨p, hp, rfl⟩ := List.mem_map.mp hb
    have := hbound ch hch
    omega

/-- Witness for `ingest_id_assignment`: one stored chunk with id 0, one fully
successful new ingestion — the merged ids stay strictly increasing. -/
theorem ingest_id_assignment_witness :
    List.Pairwise (· < ·) ((ingestChunks embAll [Chunk.mk 0 ("aa".toList) [1]]
      ["bb".toList]).map Chunk.id) :=
  (ingest_id_assignment embAll [Chunk.mk 0 ("aa".toList) [1]] ["bb".toList]).2
    (by decide) (by decide)

/-- Claim C2, counterexample: with `{"12345678":"Restricted"}` (matching the
4-digit chapter of the query `"12340000"`) the decision is not-allowed, but
adding `"12999999":"Free"` — which matches only the 2-digit chapter — flips
the decision to allowed: 2-digit-prefix codes influence the decision even
though a 4-digit-prefix code exists. -/
theorem chapter_filter_union_cex :
    ((checkHSCodeCompliance (some dbChapters) ("12340000".toList) noOracle).allowed = true)
    ∧ ((checkHSCodeCompliance (some dbChapter4Only) ("12340000".toList) noOracle).allowed = false)
    ∧ (List.lookup ("12340000".toList) dbChapters = none)
    ∧ (("12340000".toList.take 4).isPrefixOf ("12345678".toList) = true)
    ∧ (("12340000".toList.take 4).isPrefixOf ("12999999".toList) = false) := by decide

/-- Claim C2, amended: the decision engine gathers, in a single pass, every
stored code whose prefix matches the 4-digit chapter or the 2-digit chapter;
since any 4-digit-chapter match also matches the 2-digit chapter, the gathered
set equals the set of all 2-digit-chapter matches — there is no staged
4-digit-then-2-digit fallback, and 2-digit-only matches take part even when
4-digit matches exist. -/
theorem matching_codes_two_digit (hsCodesData : Option HSTable) (hsCode : List Char) :
    matchingCodes hsCodesData hsCode
      = ((hsCodesData.getD []).map Prod.fst).filter
          (fun code => (hsCode.take 2).isPrefixOf code) := by
  unfold matchingCodes
  refine List.filter_congr ?_
  intro code _
  by_cases h2 : (hsCode.take 2).isPrefixOf code = true
  · simp [h2]
  · have h2f : (hsCode.take 2).isPrefixOf code = false := by
      cases h : (hsCode.take 2).isPrefixOf code
      · rfl
      · exact absurd h h2
    have h4f : (hsCode.take 4).isPrefixOf code = false := by
      cases h4 : (hsCode.take 4).isPrefixOf code
      · rfl
      · exfalso
        apply h2
        have hp4 : hsCode.take 4 <+: code := List.isPrefixOf_iff_prefix.mp h4
        have heq : hsCode.take 2 = (hsCode.take 4).take 2 := by
          rw [List.take_take]
          norm_num
        have hp2 : hsCode.take 2 <+: hsCode.take 4 := by
          rw [heq]
          exact List.take_prefix _ _
        exact List.isPrefixOf_iff_prefix.mpr (hp2.trans hp4)
    simp [h2f, h4f]

/-- Claim C6: for a resolved code absent from the table, of length at least 4
and with a nonempty gathered chapter-match list, the engine reports
`exists:true`, `allowed` exactly when some gathered code's policy is Free
(case-insensitively), and as `policy` either `"Free"` or the first gathered
code's policy. -/
theorem chapter_fallback_decision (t : HSTable) (hsCode : List Char)
    (explain : Prompt → Option (List Char)) (c : List Char) (cs : List (List Char))
    (habsent : List.lookup hsCode t = none) (hlen : 4 ≤ hsCode.length)
    (hmatch : matchingCodes (some t) hsCode = c :: cs) :
    (checkHSCodeCompliance (some t) hsCode explain).exists_ = true
    ∧ (checkHSCodeCompliance (some t) hsCode explain).allowed
        = ((c :: cs).map (fun code => polOf t code)).any lowerEqFree
    ∧ (checkHSCodeCompliance (some t) hsCode explain).policy
        = (if ((c :: cs).map (fun code => polOf t code)).any lowerEqFree
           then some ("Free".toList)
           else some (polOf t c)) := by
  unfold checkHSCodeCompliance
  simp only [Option.bind, habsent, hmatch, if_pos hlen, Option.getD_some]
  by_cases hany : (List.map (fun code => polOf t code) (c :: cs)).any lowerEqFree = true
  · simp only [if_pos hany]
    refine ⟨by trivial, ?_, by trivial⟩
    rw [hany]
  · have hf : (List.map (fun code => polOf t code) (c :: cs)).any lowerEqFree = false := by
      cases h : (List.map (fun code => polOf t code) (c :: cs)).any lowerEqFree
      · rfl
      · exact absurd h hany
    simp only [if_neg hany]
    refine ⟨by trivial, ?_, by trivial⟩
    rw [hf]

/-- Witness for `chapter_fallback_decision` at the spec's concrete example:
table `{"12340000":"Free", "12345678":"Restricted"}`, query `"12349999"` —
the decision is `allowed:true` via chapter 1234. -/
theorem chapter_fallback_decision_witness :
    (List.lookup ("12349999".toList) dbSpecExample = none
      ∧ 4 ≤ ("12349999".toList).length
      ∧ matchingCodes (some dbSpecExample) ("12349999".toList)
          = "12340000".toList :: ["12345678".toList])
    ∧ ((checkHSCodeCompliance (some dbSpecExample) ("12349999".toList) noOracle).exists_ = true
      ∧ (checkHSCodeCompliance (some dbSpecExample) ("12349999".toList) noOracle).allowed
          = (("12340000".toList :: ["12345678".toList]).map
              (fun code => polOf dbSpecExample code)).any lowerEqFree
      ∧ (checkHSCodeCompliance (some dbSpecExample) ("12349999".toList) noOracle).policy
          = (if (("12340000".toList :: ["12345678".toList]).map
                 (fun code => polOf dbSpecExample code)).any lowerEqFree
             then some ("Free".toList)
             else some (polOf dbSpecExample ("12340000".toList))))
    ∧ (checkHSCodeCompliance (some dbSpecExample) ("12349999".toList) noOracle).allowed
        = true :=
  ⟨by decide,
   chapter_fallback_decision dbSpecExample ("12349999".toList) noOracle
     ("12340000".toList) ["12345678".toList] (by decide) (by decide) (by decide),
   by decide⟩

/-- Claim C7: resolving `"cotton shirts"` against a phrase index holding only
the entry `"shirts"` returns the code mapped to `"shirts"`, and it does so via
the third lexical tier: the exact lookup misses, no indexed phrase contains
the query, and `"shirts"` (longer than 5 characters) is contained in the
normalized item name. -/
theorem item_name_contained_tier :
    findHSCodeByItemName ("cotton shirts".toList) shirtsMap = some ("61051000".toList)
    ∧ List.lookup (trimL (lowerL ("cotton shirts".toList))) shirtsMap = none
    ∧ (shirtsMap.map Prod.fst).find?
        (fun key => isInfixL (trimL (lowerL ("cotton shirts".toList))) key) = none
    ∧ isInfixL ("shirts".toList) (trimL (lowerL ("cotton shirts".toList))) = true
    ∧ 5 < ("shirts".toList).length := by decide

/-- Claim C8, counterexample: the claim fails for an arbitrary containing
text — in `"12345678   85171200  Telephone sets  Free"`, which contains the
fragment, the leading 8-digit run starts the match and the lazy description
capture absorbs `85171200  Telephone sets`, so the table has no entry for
`85171200` and the phrase index no key `"telephone sets"`. -/
theorem extract_containing_text_cex :
    (isInfixL ("85171200  Telephone sets  Free".toList)
        ("12345678   85171200  Telephone sets  Free".toList) = true)
    ∧ ((extractHSCodes ("12345678   85171200  Telephone sets  Free".toList)).1.map Prod.fst
        = ["12345678".toList])
    ∧ ((extractHSCodes ("12345678   85171200  Telephone sets  Free".toList)).2.map Prod.fst
        = ["85171200  telephone sets".toList]) := by decide

/-- Claim C8, amended: extracting from the fragment
`"85171200  Telephone sets  Free"` itself (and from any text in which no
earlier regex match overlaps it) yields the entry
`{code:"85171200", description:"Telephone sets", policy:"Free"}` and the
phrase-index mapping `"telephone sets" -> "85171200"`; mere containment of the
fragment does not suffice. -/
theorem extract_exact_fragment :
    extractHSCodes ("85171200  Telephone sets  Free".toList)
      = ([("85171200".toList, ⟨"Telephone sets".toList, "Free".toList⟩)],
         [("telephone sets".toList, "85171200".toList)]) := by decide

theorem findByDescSubstringResp_accepts (t : HSTable) (norm : List Char)
    (hst : (findByDescSubstringResp t norm).status = some true) :
    step1Accepts (findByDescSubstringResp t norm) = true := by
  unfold findByDescSubstringResp at hst ⊢
  cases h : descSubstringFind t norm with
  | none =>
    rw [h] at hst
    simp at hst
  | some k =>
    rw [h] at hst
    by_cases hk : k.isEmpty = true
    · simp [hk] at hst
    · have hkf : k.isEmpty = false := by
        cases hb : k.isEmpty
        · rfl
        · exact absurd hb hk
      simp [step1Accepts, hkf]

/-- Claim C9: when the find-by-description route resolves by exact
case-insensitive description match it answers `{hsCode}` with no `status`
field, and the shipment orchestrator's step 1 — which requires a truthy
`status` — rejects that resolution; any response carrying `status:true` (the
partial-match responses) is accepted. -/
theorem exact_match_rejected (hsCodesData : Option HSTable) (d : List Char)
    (hd : d.isEmpty = false) :
    (∀ k, descExactFind (hsCodesData.getD []) (trimL (lowerL d)) = some k →
      k.isEmpty = false →
      findByDescriptionRoute hsCodesData (some d)
        = ⟨200, none, some k, false, false⟩
      ∧ step1Accepts (findByDescriptionRoute hsCodesData (some d)) = false)
    ∧ ((findByDescriptionRoute hsCodesData (some d)).status = some true →
       step1Accepts (findByDescriptionRoute hsCodesData (some d)) = true) := by
  have htr : (!optTruthy (some d)) = false := by
    simp [optTruthy, hd]
  constructor
  · intro k hk hke
    have hroute : findByDescriptionRoute hsCodesData (some d)
        = ⟨200, none, some k, false, false⟩ := by
      unfold findByDescriptionRoute
      rw [htr]
      simp only [Option.getD_some, Bool.false_eq_true, if_false, hk]
      rw [if_neg (by rw [hke]; exact Bool.false_ne_true)]
    rw [hroute]
    exact ⟨rfl, rfl⟩
  · intro hst
    unfold findByDescriptionRoute at hst ⊢
    rw [htr] at hst ⊢
    simp only [Option.getD_some, Bool.false_eq_true, if_false] at hst ⊢
    cases hk : descExactFind (hsCodesData.getD []) (trimL (lowerL d)) with
    | none =>
      rw [hk] at hst
      exact findByDescSubstringResp_accepts _ _ hst
    | some k =>
      rw [hk] at hst
      by_cases hke : k.isEmpty = true
      · simp only [hke, reduceIte] at hst
        simp only [hke, reduceIte]
        exact findByDescSubstringResp_accepts _ _ hst
      · have hkf : k.isEmpty = false := by
          cases hb : k.isEmpty
          · rfl
          · exact absurd hb hke
        simp [hkf] at hst

/-- Witness for `exact_match_rejected`: table with the single code `85171200`
(description `Telephone sets`); the exact query is rejected by step 1, the
partial query `"telephone"` is accepted. -/
theorem exact_match_rejected_witness :
    (descExactFind ((some dbTelephone).getD []) (trimL (lowerL ("Telephone sets".toList)))
        = some ("85171200".toList))
    ∧ (findByDescriptionRoute (some dbTelephone) (some ("Telephone sets".toList))
         = ⟨200, none, some ("85171200".toList), false, false⟩
       ∧ step1Accepts (findByDescriptionRoute (some dbTelephone)
           (some ("Telephone sets".toList))) = false)
    ∧ step1Accepts (findByDescriptionRoute (some dbTelephone)
        (some ("telephone".toList))) = true :=
  ⟨by decide,
   (exact_match_rejected (some dbTelephone) ("Telephone sets".toList) (by decide)).1
     ("85171200".toList) (by decide) (by decide),
   (exact_match_rejected (some dbTelephone) ("telephone".toList) (by decide)).2 (by decide)⟩

/-- Claim C10: at startup only the combined snapshot is loaded, so
`itemToHsMap` is `undefined` in any process without a successful ingestion; a
check-export-compliance request carrying only an item name then throws inside
`findHSCodeByItemName` when indexing the undefined map, and the route answers
with the 500 server error instead of the normal unresolved negative result. -/
theorem startup_item_name_server_error (file : Option Snapshot) (nm : List Char)
    (explain : Prompt → Option (List Char)) (hnm : nm.isEmpty = false) :
    (startupDb file).itemToHsMap = none
    ∧ checkExportComplianceRoute (startupDb file) none (some nm) none explain
        = ExportResp.serverError := by
  have hmap : (startupDb file).itemToHsMap = none := by
    cases file <;> rfl
  refine ⟨hmap, ?_⟩
  simp [checkExportComplianceRoute, optTruthy, hnm, hmap]

/-- Witness for `startup_item_name_server_error`: no snapshot file, request
with item name `"shirts"`. -/
theorem startup_item_name_server_error_witness :
    (("shirts".toList).isEmpty = false)
    ∧ ((startupDb none).itemToHsMap = none
       ∧ checkExportComplianceRoute (startupDb none) none (some ("shirts".toList)) none
           noOracle = ExportResp.serverError) :=
  ⟨by decide, startup_item_name_server_error none ("shirts".toList) noOracle (by decide)⟩

